import Mathlib

/-!
# Regression-tree builder and predictor: a shallow embedding

The repository's notebook delegates decision-tree regression to a library
call; the specification describes the regression-tree core (recursive
variance-reduction splitting) as the component to implement.  The
definitions below model that component from the specification: samples are
rational feature vectors paired with a rational target, a tree is a sum
type of split nodes and leaf nodes, construction recursively selects the
candidate `(feature, threshold)` pair of maximal variance-reduction score
(candidate thresholds are the midpoints between consecutive sorted
distinct observed values of each feature — the documented policy), and
prediction walks the tree.
-/

namespace DTree

/-- Modelled from the spec: a Sample is a feature vector (ordered sequence
of numeric values) paired with a scalar target value. -/
abbrev Sample := List ℚ × ℚ

/-- Modelled from the spec: a Tree Node is either a Split Node (feature
index, threshold, left and right child) or a Leaf Node (a single scalar
prediction value). -/
inductive Node where
  | leaf (value : ℚ)
  | split (feature : ℕ) (threshold : ℚ) (left right : Node)
  deriving DecidableEq, Repr

/-- Targets of a list of samples, in order. -/
def targets (S : List Sample) : List ℚ := S.map Prod.snd

/-- Arithmetic mean of a list of rationals (0 on the empty list, since
division by zero yields 0 in `ℚ`). -/
def mean (ys : List ℚ) : ℚ := ys.sum / (ys.length : ℚ)

/-- Modelled from the spec: `Var(X) = mean((y_i - mean(y in X))^2)`. -/
def variance (ys : List ℚ) : ℚ := mean (ys.map (fun y => (y - mean ys) ^ 2))

/-- Whether all entries of the list are equal (vacuously true when empty). -/
def allEqual (ys : List ℚ) : Bool :=
  match ys with
  | [] => true
  | y :: t => t.all (fun z => z = y)

/-- The routing test: a sample with feature vector `fv` goes to the left
child of a split on feature `j` at threshold `t` iff `fv[j] ≤ t`
(out-of-range accesses read 0; construction and prediction bound-check
separately). -/
def goesLeft (j : ℕ) (t : ℚ) (fv : List ℚ) : Bool := fv.getD j 0 ≤ t

/-- Insert a value into a strictly sorted list, keeping it strictly
sorted; duplicates are dropped. -/
def insertDistinct (x : ℚ) : List ℚ → List ℚ
  | [] => [x]
  | y :: ys =>
    if x < y then x :: y :: ys
    else if x = y then y :: ys
    else y :: insertDistinct x ys

/-- The sorted distinct values of a list, ascending. -/
def sortedDistinct (xs : List ℚ) : List ℚ := xs.foldr insertDistinct []

/-- Midpoints between consecutive entries of a list. -/
def midpoints : List ℚ → List ℚ
  | a :: b :: rest => (a + b) / 2 :: midpoints (b :: rest)
  | _ => []

/-- The observed values of feature `j` in a sample subset, in order. -/
def featVals (S : List Sample) (j : ℕ) : List ℚ := S.map (fun s => s.1.getD j 0)

/-- Candidate thresholds for feature `j`: the midpoints between
consecutive sorted distinct observed values of that feature (the
documented threshold policy). -/
def thresholds (S : List Sample) (j : ℕ) : List ℚ :=
  midpoints (sortedDistinct (featVals S j))

/-- Number of features, read off the first sample (the training set is a
feature matrix, so rows share one width). -/
def nFeatures (S : List Sample) : ℕ :=
  match S with
  | [] => 0
  | s :: _ => s.1.length

/-- All candidate `(feature, threshold)` pairs of a sample subset,
enumerated by ascending feature index and, within a feature, ascending
threshold. -/
def candidates (S : List Sample) : List (ℕ × ℚ) :=
  (List.range (nFeatures S)).flatMap (fun j => (thresholds S j).map (fun t => (j, t)))

/-- The left part of the split of `S` on feature `j` at threshold `t`. -/
def leftOf (S : List Sample) (j : ℕ) (t : ℚ) : List Sample :=
  S.filter (fun s => goesLeft j t s.1)

/-- The right part of the split of `S` on feature `j` at threshold `t`:
exactly the complement of the left part. -/
def rightOf (S : List Sample) (j : ℕ) (t : ℚ) : List Sample :=
  S.filter (fun s => ¬ goesLeft j t s.1)

/-- Modelled from the spec: the weighted variance-reduction score
`score = Var(S) - (|S_left|/|S| * Var(S_left) + |S_right|/|S| * Var(S_right))`. -/
def splitScore (S : List Sample) (j : ℕ) (t : ℚ) : ℚ :=
  variance (targets S) -
    (((leftOf S j t).length : ℚ) / (S.length : ℚ) * variance (targets (leftOf S j t)) +
     ((rightOf S j t).length : ℚ) / (S.length : ℚ) * variance (targets (rightOf S j t)))

/-- Left fold selecting the maximum-score candidate; on ties the earlier
candidate is kept, so enumeration order (lower feature index, then lower
threshold) breaks ties. -/
def argmaxFrom (f : ℕ × ℚ → ℚ) (c : ℕ × ℚ) : List (ℕ × ℚ) → ℕ × ℚ
  | [] => c
  | x :: xs => argmaxFrom f (if f c < f x then x else c) xs

/-- Modelled from the spec: select the candidate with the maximum score,
tie-breaking deterministically by lower feature index then lower
threshold; `none` when there is no candidate at all. -/
def selectBest (S : List Sample) : Option (ℕ × ℚ) :=
  match candidates S with
  | [] => none
  | c :: cs => some (argmaxFrom (fun p => splitScore S p.1 p.2) c cs)

/-! ## Sorted-distinct values and candidate separation -/

theorem mem_insertDistinct (x a : ℚ) (l : List ℚ) :
    a ∈ insertDistinct x l ↔ a = x ∨ a ∈ l := by
  induction l with
  | nil => simp [insertDistinct]
  | cons y ys ih =>
    by_cases hlt : x < y
    · simp [insertDistinct, hlt]
    · by_cases heq : x = y
      · subst heq
        simp only [insertDistinct, hlt, if_false, if_pos rfl]
        constructor
        · intro h; exact Or.inr h
        · rintro (rfl | h)
          · exact List.mem_cons_self _ _
          · exact h
      · simp only [insertDistinct, hlt, if_false, heq, List.mem_cons, ih]
        tauto

theorem pairwise_insertDistinct (x : ℚ) (l : List ℚ)
    (h : l.Pairwise (· < ·)) : (insertDistinct x l).Pairwise (· < ·) := by
  induction l with
  | nil => simp [insertDistinct]
  | cons y ys ih =>
    rcases List.pairwise_cons.mp h with ⟨hy, hys⟩
    by_cases hlt : x < y
    · simp only [insertDistinct, hlt, if_true]
      refine List.pairwise_cons.mpr ⟨?_, h⟩
      intro b hb
      rcases List.mem_cons.mp hb with rfl | hb
      · exact hlt
      · exact hlt.trans (hy b hb)
    · by_cases heq : x = y
      · subst heq; simpa [insertDistinct, hlt] using h
      · have hyx : y < x := lt_of_le_of_ne (not_lt.mp hlt) (Ne.symm heq)
        simp only [insertDistinct, hlt, if_false, heq]
        refine List.pairwise_cons.mpr ⟨?_, ih hys⟩
        intro b hb
        rcases (mem_insertDistinct x b ys).mp hb with rfl | hb
        · exact hyx
        · exact hy b hb

theorem pairwise_sortedDistinct (xs : List ℚ) :
    (sortedDistinct xs).Pairwise (· < ·) := by
  induction xs with
  | nil => simp [sortedDistinct]
  | cons x t ih => exact pairwise_insertDistinct x _ ih

theorem mem_sortedDistinct (xs : List ℚ) (a : ℚ) :
    a ∈ sortedDistinct xs ↔ a ∈ xs := by
  induction xs with
  | nil => simp [sortedDistinct]
  | cons x t ih =>
    simp only [sortedDistinct, List.foldr_cons, mem_insertDistinct, List.mem_cons]
    rw [show t.foldr insertDistinct [] = sortedDistinct t from rfl] at *
    tauto

/-- Every midpoint of a strictly ascending list lies weakly above some
element and strictly below another. -/
theorem midpoints_sep (l : List ℚ) (hl : l.Pairwise (· < ·)) (t : ℚ)
    (ht : t ∈ midpoints l) :
    (∃ a ∈ l, a ≤ t) ∧ (∃ b ∈ l, t < b) := by
  induction l with
  | nil => simp [midpoints] at ht
  | cons a l ih =>
    match l, ht with
    | b :: rest, ht =>
      rcases List.pairwise_cons.mp hl with ⟨ha, hbl⟩
      have hab : a < b := ha b (List.mem_cons_self _ _)
      rcases List.mem_cons.mp ht with rfl | ht
      · constructor
        · exact ⟨a, List.mem_cons_self _ _, by linarith⟩
        · exact ⟨b, List.mem_cons.mpr (Or.inr (List.mem_cons_self _ _)), by linarith⟩
      · rcases ih hbl ht with ⟨⟨x, hx, hxt⟩, ⟨y, hy, hty⟩⟩
        exact ⟨⟨x, List.mem_cons.mpr (Or.inr hx), hxt⟩,
               ⟨y, List.mem_cons.mpr (Or.inr hy), hty⟩⟩

/-- A candidate threshold separates the subset: some sample routes left
and some sample routes right. -/
theorem thresholds_sep (S : List Sample) (j : ℕ) (t : ℚ)
    (ht : t ∈ thresholds S j) :
    (∃ s ∈ S, goesLeft j t s.1) ∧ (∃ s ∈ S, ¬ goesLeft j t s.1) := by
  rcases midpoints_sep _ (pairwise_sortedDistinct (featVals S j)) t ht with
    ⟨⟨a, ha, hat⟩, ⟨b, hb, htb⟩⟩
  rw [mem_sortedDistinct] at ha hb
  rcases List.mem_map.mp ha with ⟨s, hs, rfl⟩
  rcases List.mem_map.mp hb with ⟨u, hu, rfl⟩
  constructor
  · exact ⟨s, hs, by simpa [goesLeft] using hat⟩
  · exact ⟨u, hu, by simpa [goesLeft] using htb⟩

theorem argmaxFrom_eq_or_mem (f : ℕ × ℚ → ℚ) (c : ℕ × ℚ) (l : List (ℕ × ℚ)) :
    argmaxFrom f c l = c ∨ argmaxFrom f c l ∈ l := by
  induction l generalizing c with
  | nil => exact Or.inl rfl
  | cons x xs ih =>
    simp only [argmaxFrom]
    rcases ih (if f c < f x then x else c) with h | h
    · rw [h]
      split
      · exact Or.inr (List.mem_cons_self _ _)
      · exact Or.inl rfl
    · exact Or.inr (List.mem_cons.mpr (Or.inr h))

theorem selectBest_mem (S : List Sample) (c : ℕ × ℚ)
    (h : selectBest S = some c) : c ∈ candidates S := by
  unfold selectBest at h
  rcases hc : candidates S with _ | ⟨x, xs⟩ <;> rw [hc] at h
  · simp at h
  · simp only [Option.some.injEq] at h
    rw [← h]
    rcases argmaxFrom_eq_or_mem (fun p => splitScore S p.1 p.2) x xs with h' | h'
    · rw [h']; exact List.mem_cons_self _ _
    · exact List.mem_cons.mpr (Or.inr h')

theorem candidates_snd_mem (S : List Sample) (j : ℕ) (t : ℚ)
    (h : (j, t) ∈ candidates S) : t ∈ thresholds S j := by
  unfold candidates at h
  rcases List.mem_flatMap.mp h with ⟨j', _, hmem⟩
  rcases List.mem_map.mp hmem with ⟨t', ht', heq⟩
  obtain ⟨rfl, rfl⟩ : j' = j ∧ t' = t := by
    constructor <;> [exact (Prod.mk.injEq .. ▸ heq).1; exact (Prod.mk.injEq .. ▸ heq).2]
  exact ht'

/-- A selected best split leaves both parts strictly smaller than the
parent subset. -/
theorem selectBest_parts_lt (S : List Sample) (j : ℕ) (t : ℚ)
    (h : selectBest S = some (j, t)) :
    (leftOf S j t).length < S.length ∧ (rightOf S j t).length < S.length := by
  have ht := candidates_snd_mem S j t (selectBest_mem S (j, t) h)
  rcases thresholds_sep S j t ht with ⟨⟨s, hs, hsl⟩, ⟨u, hu, hur⟩⟩
  constructor
  · exact List.length_filter_lt_length_iff_exists.mpr ⟨u, hu, by simpa using hur⟩
  · refine List.length_filter_lt_length_iff_exists.mpr ⟨s, hs, by simpa using hsl⟩

/-! ## Construction -/

/-- One step of the remaining-depth budget: `none` is unbounded depth. -/
def decDepth : Option ℕ → Option ℕ := Option.map (· - 1)

/-- Whether the recursion depth limit is reached. -/
def depthDone : Option ℕ → Prop
  | none => False
  | some d => d = 0

instance (d : Option ℕ) : Decidable (depthDone d) := by
  cases d <;> simp [depthDone] <;> infer_instance

/-- Modelled from the spec: recursive construction of the node covering a
sample subset `S`.  Terminal condition: too few samples, depth limit
reached, or all targets equal — then a Leaf with the mean target.
Otherwise the maximum-score candidate is selected; if it would produce a
child below `minLeaf` or its score is ≤ 0 (or no candidate exists), fall
back to a Leaf; otherwise install the Split and recurse into both parts. -/
def buildNode (S : List Sample) (depthBudget : Option ℕ) (minSplit minLeaf : ℕ) : Node :=
  if S.length < minSplit ∨ depthDone depthBudget ∨ allEqual (targets S) then
    .leaf (mean (targets S))
  else
    match h : selectBest S with
    | none => .leaf (mean (targets S))
    | some (j, t) =>
      if (leftOf S j t).length < minLeaf ∨ (rightOf S j t).length < minLeaf ∨
          splitScore S j t ≤ 0 then
        .leaf (mean (targets S))
      else
        .split j t (buildNode (leftOf S j t) (decDepth depthBudget) minSplit minLeaf)
                   (buildNode (rightOf S j t) (decDepth depthBudget) minSplit minLeaf)
termination_by S.length
decreasing_by
  · exact (selectBest_parts_lt S j t h).1
  · exact (selectBest_parts_lt S j t h).2

/-- Modelled from the spec: construction error — empty training set. -/
inductive BuildError where
  | InvalidInput
  deriving DecidableEq, Repr

/-- Modelled from the spec:
`build(samples, max_depth, min_samples_split, min_samples_leaf) -> Tree`,
failing with `InvalidInput` exactly on the empty sample sequence. -/
def build (samples : List Sample) (maxDepth : Option ℕ) (minSplit minLeaf : ℕ) :
    Except BuildError Node :=
  match samples with
  | [] => .error .InvalidInput
  | _ => .ok (buildNode samples maxDepth minSplit minLeaf)

/-- Fuel-indexed variant of `buildNode`, structurally recursive so that
concrete trees reduce in the kernel; `buildNodeF_eq` shows it agrees with
`buildNode` whenever the fuel covers the subset size. -/
def buildNodeF : ℕ → List Sample → Option ℕ → ℕ → ℕ → Node
  | 0, S, _, _, _ => .leaf (mean (targets S))
  | fuel + 1, S, depthBudget, minSplit, minLeaf =>
    if S.length < minSplit ∨ depthDone depthBudget ∨ allEqual (targets S) then
      .leaf (mean (targets S))
    else
      match selectBest S with
      | none => .leaf (mean (targets S))
      | some (j, t) =>
        if (leftOf S j t).length < minLeaf ∨ (rightOf S j t).length < minLeaf ∨
            splitScore S j t ≤ 0 then
          .leaf (mean (targets S))
        else
          .split j t (buildNodeF fuel (leftOf S j t) (decDepth depthBudget) minSplit minLeaf)
                     (buildNodeF fuel (rightOf S j t) (decDepth depthBudget) minSplit minLeaf)

theorem buildNodeF_eq (fuel : ℕ) :
    ∀ (S : List Sample) (d : Option ℕ) (ms ml : ℕ), S.length ≤ fuel →
      buildNodeF fuel S d ms ml = buildNode S d ms ml := by
  induction fuel with
  | zero =>
    intro S d ms ml hS
    have : S = [] := List.length_eq_zero.mp (Nat.le_zero.mp hS)
    subst this
    rw [buildNode]
    simp [buildNodeF, allEqual, targets]
  | succ n ih =>
    intro S d ms ml hS
    rw [buildNode, buildNodeF]
    rcases hsel : selectBest S with _ | ⟨j, t⟩
    · rfl
    · have hlt := selectBest_parts_lt S j t hsel
      split
      · rfl
      · simp only []
        rw [ih _ _ _ _ (Nat.le_of_lt_succ (lt_of_lt_of_le hlt.1 hS)),
            ih _ _ _ _ (Nat.le_of_lt_succ (lt_of_lt_of_le hlt.2 hS))]

/-! ## Prediction -/

/-- Modelled from the spec: prediction error — query vector shorter than
the tree requires. -/
inductive PredictError where
  | DimensionMismatch
  deriving DecidableEq, Repr

/-- The dimension a tree requires of query vectors: one more than the
largest feature index referenced by any Split Node (0 for a bare leaf). -/
def requiredDim : Node → ℕ
  | .leaf _ => 0
  | .split j _ l r => max (j + 1) (max (requiredDim l) (requiredDim r))

/-- All feature indices referenced by the tree's Split Nodes. -/
def featuresOf : Node → List ℕ
  | .leaf _ => []
  | .split j _ l r => j :: (featuresOf l ++ featuresOf r)

/-- All stored Leaf Node values of a tree. -/
def leafValues : Node → List ℚ
  | .leaf v => [v]
  | .split _ _ l r => leafValues l ++ leafValues r

/-- The traversal: go left iff `fv[feature] ≤ threshold`, return the
leaf's stored value. -/
def traverse : Node → List ℚ → ℚ
  | .leaf v, _ => v
  | .split j t l r, fv => if goesLeft j t fv then traverse l fv else traverse r fv

/-- Modelled from the spec: `predict(tree, feature_vector) -> float`;
fails with `DimensionMismatch` when the query vector is shorter than the
tree requires, otherwise traverses from the root to a leaf. -/
def predict (tree : Node) (fv : List ℚ) : Except PredictError ℚ :=
  if fv.length < requiredDim tree then .error .DimensionMismatch
  else .ok (traverse tree fv)

/-- Modelled from the spec: batch prediction, produced one query at a
time in input order (the sequence realization of the lazy iterator). -/
def predict_many (tree : Node) : List (List ℚ) → List (Except PredictError ℚ)
  | [] => []
  | fv :: rest => predict tree fv :: predict_many tree rest

/-! ## The structural invariant -/

/-- The structural invariant of a built tree over the sample subset it was
built from: each Split Node's left child is built from exactly the samples
whose chosen feature value is ≤ the threshold (`leftOf`), the right child
from exactly the complementary samples (`rightOf`), and each Leaf Node
stores the arithmetic mean of the targets routed to it. -/
inductive Routed : Node → List Sample → Prop where
  | leaf (S : List Sample) : Routed (.leaf (mean (targets S))) S
  | split (j : ℕ) (t : ℚ) (l r : Node) (S : List Sample) :
      Routed l (leftOf S j t) → Routed r (rightOf S j t) →
      Routed (.split j t l r) S

/-- The two parts of a split are a permutation of the parent subset:
union equals the parent, no omission, no duplication. -/
theorem leftOf_append_rightOf_perm (S : List Sample) (j : ℕ) (t : ℚ) :
    (leftOf S j t ++ rightOf S j t).Perm S := by
  have hcongr : S.filter (fun s => ¬ goesLeft j t s.1) =
      S.filter (fun s => ! goesLeft j t s.1) := by
    apply List.filter_congr
    intro s _
    cases goesLeft j t s.1 <;> simp
  unfold leftOf rightOf
  rw [hcongr]
  exact List.filter_append_perm _ S

/-- The two parts of a split never overlap. -/
theorem leftOf_rightOf_disjoint (S : List Sample) (j : ℕ) (t : ℚ) (s : Sample) :
    ¬ (s ∈ leftOf S j t ∧ s ∈ rightOf S j t) := by
  rintro ⟨hl, hr⟩
  rcases List.mem_filter.mp hl with ⟨-, hpl⟩
  rcases List.mem_filter.mp hr with ⟨-, hpr⟩
  simp at hpl hpr
  exact absurd hpl (by simpa using hpr)

theorem routed_buildNodeF (fuel : ℕ) :
    ∀ (S : List Sample) (d : Option ℕ) (ms ml : ℕ),
      Routed (buildNodeF fuel S d ms ml) S := by
  induction fuel with
  | zero => intro S d ms ml; exact Routed.leaf S
  | succ n ih =>
    intro S d ms ml
    rw [buildNodeF]
    split
    · exact Routed.leaf S
    · split
      · exact Routed.leaf S
      · split
        · exact Routed.leaf S
        · exact Routed.split _ _ _ _ S (ih _ _ _ _) (ih _ _ _ _)

/-- Every tree built by `buildNode` satisfies the structural invariant. -/
theorem routed_buildNode (S : List Sample) (d : Option ℕ) (ms ml : ℕ) :
    Routed (buildNode S d ms ml) S := by
  rw [← buildNodeF_eq S.length S d ms ml le_rfl]
  exact routed_buildNodeF S.length S d ms ml

/-! ## The variance-decomposition identity for the split score -/

theorem mean_singleton (y : ℚ) : mean [y] = y := by
  simp [mean]

theorem sum_sq_dev (ys : List ℚ) (c : ℚ) :
    (ys.map (fun y => (y - c) ^ 2)).sum =
      (ys.map (fun y => y ^ 2)).sum - 2 * c * ys.sum + (ys.length : ℚ) * c ^ 2 := by
  induction ys with
  | nil => simp
  | cons x t ih =>
    simp only [List.map_cons, List.sum_cons, ih, List.length_cons]
    push_cast
    ring

theorem targets_perm (S : List Sample) (j : ℕ) (t : ℚ) :
    (targets (leftOf S j t) ++ targets (rightOf S j t)).Perm (targets S) := by
  unfold targets
  rw [← List.map_append]
  exact (leftOf_append_rightOf_perm S j t).map Prod.snd

theorem length_targets (S : List Sample) : (targets S).length = S.length :=
  List.length_map _ _

/-- The weighted variance-reduction score in closed form: with both parts
non-empty it is the product of the two weight fractions times the squared
difference of the part means. -/
theorem splitScore_eq (S : List Sample) (j : ℕ) (t : ℚ)
    (hl : leftOf S j t ≠ []) (hr : rightOf S j t ≠ []) :
    splitScore S j t =
      ((leftOf S j t).length : ℚ) * ((rightOf S j t).length : ℚ) / ((S.length : ℚ) ^ 2) *
        (mean (targets (leftOf S j t)) - mean (targets (rightOf S j t))) ^ 2 := by
  have hperm := targets_perm S j t
  have hsum : (targets (leftOf S j t)).sum + (targets (rightOf S j t)).sum
      = (targets S).sum := by
    rw [← List.sum_append]; exact hperm.sum_eq
  have hsq : ((targets (leftOf S j t)).map (fun y => y ^ 2)).sum +
      ((targets (rightOf S j t)).map (fun y => y ^ 2)).sum
      = ((targets S).map (fun y => y ^ 2)).sum := by
    rw [← List.sum_append, ← List.map_append]; exact (hperm.map _).sum_eq
  have hlen : (targets (leftOf S j t)).length + (targets (rightOf S j t)).length
      = (targets S).length := by
    rw [← List.length_append]; exact hperm.length_eq
  have hla : 0 < (targets (leftOf S j t)).length := by
    simpa [length_targets, List.length_pos] using hl
  have hlb : 0 < (targets (rightOf S j t)).length := by
    simpa [length_targets, List.length_pos] using hr
  have hlaQ : ((targets (leftOf S j t)).length : ℚ) ≠ 0 := by positivity
  have hlbQ : ((targets (rightOf S j t)).length : ℚ) ≠ 0 := by positivity
  have hn : 0 < (targets S).length := by omega
  have hnQ : ((targets S).length : ℚ) ≠ 0 := by positivity
  unfold splitScore variance mean
  rw [List.length_map, List.length_map, List.length_map,
      sum_sq_dev, sum_sq_dev, sum_sq_dev,
      ← hsum, ← hsq, show (S.length : ℚ) = ((targets S).length : ℚ) by rw [length_targets],
      show ((leftOf S j t).length : ℚ) = ((targets (leftOf S j t)).length : ℚ) by
        rw [length_targets],
      show ((rightOf S j t).length : ℚ) = ((targets (rightOf S j t)).length : ℚ) by
        rw [length_targets],
      ← hlen]
  push_cast
  field_simp
  ring

theorem leftOf_eq_nil_rightOf (S : List Sample) (j : ℕ) (t : ℚ)
    (h : leftOf S j t = []) : rightOf S j t = S := by
  have hall := List.filter_eq_nil_iff.mp h
  apply List.filter_eq_self.mpr
  intro s hs
  simpa using hall s hs

theorem rightOf_eq_nil_leftOf (S : List Sample) (j : ℕ) (t : ℚ)
    (h : rightOf S j t = []) : leftOf S j t = S := by
  have hall := List.filter_eq_nil_iff.mp h
  apply List.filter_eq_self.mpr
  intro s hs
  have := hall s hs
  simpa using this

theorem splitScore_zero_of_left_nil (S : List Sample) (j : ℕ) (t : ℚ)
    (h : leftOf S j t = []) : splitScore S j t = 0 := by
  have hr := leftOf_eq_nil_rightOf S j t h
  unfold splitScore
  rw [h, hr]
  rcases eq_or_ne S [] with rfl | hS
  · simp [targets, variance, mean]
  · have : ((S.length : ℚ)) ≠ 0 := by
      have := List.length_pos.mpr hS
      positivity
    field_simp

theorem splitScore_zero_of_right_nil (S : List Sample) (j : ℕ) (t : ℚ)
    (h : rightOf S j t = []) : splitScore S j t = 0 := by
  have hlS := rightOf_eq_nil_leftOf S j t h
  unfold splitScore
  rw [h, hlS]
  rcases eq_or_ne S [] with rfl | hS
  · simp [targets, variance, mean]
  · have : ((S.length : ℚ)) ≠ 0 := by
      have := List.length_pos.mpr hS
      positivity
    field_simp

/-- A positive score forces both parts to be non-empty. -/
theorem splitScore_pos_parts (S : List Sample) (j : ℕ) (t : ℚ)
    (h : 0 < splitScore S j t) : leftOf S j t ≠ [] ∧ rightOf S j t ≠ [] := by
  constructor
  · intro hnil
    rw [splitScore_zero_of_left_nil S j t hnil] at h
    exact lt_irrefl 0 h
  · intro hnil
    rw [splitScore_zero_of_right_nil S j t hnil] at h
    exact lt_irrefl 0 h

/-- With both parts non-empty and distinct part means, the score is
strictly positive. -/
theorem splitScore_pos (S : List Sample) (j : ℕ) (t : ℚ)
    (hl : leftOf S j t ≠ []) (hr : rightOf S j t ≠ [])
    (hm : mean (targets (leftOf S j t)) ≠ mean (targets (rightOf S j t))) :
    0 < splitScore S j t := by
  rw [splitScore_eq S j t hl hr]
  have h1 : (0:ℚ) < ((leftOf S j t).length : ℚ) := by
    have := List.length_pos.mpr hl
    positivity
  have h2 : (0:ℚ) < ((rightOf S j t).length : ℚ) := by
    have := List.length_pos.mpr hr
    positivity
  have h3 : (0:ℚ) < ((S.length : ℚ)) ^ 2 := by
    have hS : S ≠ [] := by
      intro hS; subst hS; simp [leftOf] at hl
    have := List.length_pos.mpr hS
    positivity
  have h4 : (0:ℚ) < (mean (targets (leftOf S j t)) - mean (targets (rightOf S j t))) ^ 2 := by
    have : mean (targets (leftOf S j t)) - mean (targets (rightOf S j t)) ≠ 0 :=
      sub_ne_zero_of_ne hm
    positivity
  positivity

/-! ## The selection order: maximum score, ties to the lexically least
candidate (lower feature index, then lower threshold) -/

/-- The deterministic tie-break preference: lower feature index, then
lower threshold. -/
def lexLE (c d : ℕ × ℚ) : Prop := c.1 < d.1 ∨ (c.1 = d.1 ∧ c.2 ≤ d.2)

/-- Strict enumeration order on candidates. -/
def lexLT (c d : ℕ × ℚ) : Prop := c.1 < d.1 ∨ (c.1 = d.1 ∧ c.2 < d.2)

theorem lexLT_le (c d : ℕ × ℚ) (h : lexLT c d) : lexLE c d := by
  rcases h with h | ⟨h1, h2⟩
  · exact Or.inl h
  · exact Or.inr ⟨h1, le_of_lt h2⟩

theorem lexLE_refl (c : ℕ × ℚ) : lexLE c c := Or.inr ⟨rfl, le_rfl⟩

theorem pairwise_midpoints (l : List ℚ) (hl : l.Pairwise (· < ·)) :
    (midpoints l).Pairwise (· < ·) := by
  induction l with
  | nil => simp [midpoints]
  | cons a l ih =>
    cases l with
    | nil => simp [midpoints]
    | cons b rest =>
      rcases List.pairwise_cons.mp hl with ⟨ha, htail⟩
      refine List.pairwise_cons.mpr ⟨?_, ih htail⟩
      intro t ht
      rcases (midpoints_sep _ htail t ht).1 with ⟨x, hx, hxt⟩
      have hbx : b ≤ x := by
        rcases List.mem_cons.mp hx with rfl | hx
        · exact le_rfl
        · exact le_of_lt ((List.pairwise_cons.mp htail).1 x hx)
      have hab : a < b := ha b (List.mem_cons_self _ _)
      calc (a + b) / 2 < b := by linarith
        _ ≤ t := le_trans hbx hxt

theorem pairwise_thresholds (S : List Sample) (j : ℕ) :
    (thresholds S j).Pairwise (· < ·) :=
  pairwise_midpoints _ (pairwise_sortedDistinct _)

theorem candidates_fst_lt (S : List Sample) (c : ℕ × ℚ)
    (h : c ∈ candidates S) : c.1 < nFeatures S := by
  unfold candidates at h
  rcases List.mem_flatMap.mp h with ⟨j, hj, hmem⟩
  rcases List.mem_map.mp hmem with ⟨t, -, rfl⟩
  exact List.mem_range.mp hj

theorem pairwise_lex_candidates (S : List Sample) :
    (candidates S).Pairwise lexLT := by
  have key : ∀ n : ℕ,
      ((List.range n).flatMap (fun j => (thresholds S j).map (fun t => (j, t)))).Pairwise
        lexLT := by
    intro n
    induction n with
    | zero => simp
    | succ n ih =>
      rw [List.range_succ, List.flatMap_append]
      refine List.pairwise_append.mpr ⟨ih, ?_, ?_⟩
      · simp only [List.flatMap_cons, List.flatMap_nil, List.append_nil]
        rw [List.pairwise_map]
        refine (pairwise_thresholds S n).imp ?_
        intro t t' htt
        exact Or.inr ⟨rfl, htt⟩
      · intro c hc d hd
        rcases List.mem_flatMap.mp hc with ⟨j, hj, hmem⟩
        rcases List.mem_map.mp hmem with ⟨t, -, rfl⟩
        simp only [List.flatMap_cons, List.flatMap_nil, List.append_nil] at hd
        rcases List.mem_map.mp hd with ⟨t', -, rfl⟩
        exact Or.inl (List.mem_range.mp hj)
  exact key (nFeatures S)

/-- The fold `argmaxFrom` returns either its seed (then nothing beats the
seed) or the first strict improvement that nothing later beats. -/
theorem argmaxFrom_spec (f : ℕ × ℚ → ℚ) :
    ∀ (l : List (ℕ × ℚ)) (c : ℕ × ℚ),
      (argmaxFrom f c l = c ∧ ∀ x ∈ l, f x ≤ f c) ∨
      ∃ l₁ x l₂, l = l₁ ++ x :: l₂ ∧ argmaxFrom f c l = x ∧ f c < f x ∧
        (∀ y ∈ l₁, f y < f x) ∧ (∀ y ∈ l₂, f y ≤ f x) := by
  intro l
  induction l with
  | nil => intro c; left; exact ⟨rfl, by simp⟩
  | cons x xs ih =>
    intro c
    by_cases hcx : f c < f x
    · have hstep : argmaxFrom f c (x :: xs) = argmaxFrom f x xs := by
        simp [argmaxFrom, hcx]
      rcases ih x with ⟨heq, hmax⟩ | ⟨l₁, z, l₂, hxs, heq, hlt, hl₁, hl₂⟩
      · right
        exact ⟨[], x, xs, by simp, by rw [hstep, heq], hcx, by simp, hmax⟩
      · right
        refine ⟨x :: l₁, z, l₂, by rw [hxs]; simp, by rw [hstep, heq], lt_trans hcx hlt, ?_, hl₂⟩
        intro y hy
        rcases List.mem_cons.mp hy with rfl | hy
        · exact hlt
        · exact hl₁ y hy
    · have hstep : argmaxFrom f c (x :: xs) = argmaxFrom f c xs := by
        simp [argmaxFrom, hcx]
      rcases ih c with ⟨heq, hmax⟩ | ⟨l₁, z, l₂, hxs, heq, hlt, hl₁, hl₂⟩
      · left
        refine ⟨by rw [hstep, heq], ?_⟩
        intro y hy
        rcases List.mem_cons.mp hy with rfl | hy
        · exact not_lt.mp hcx
        · exact hmax y hy
      · right
        refine ⟨x :: l₁, z, l₂, by rw [hxs]; simp, by rw [hstep, heq], hlt, ?_, hl₂⟩
        intro y hy
        rcases List.mem_cons.mp hy with rfl | hy
        · exact lt_of_le_of_lt (not_lt.mp hcx) hlt
        · exact hl₁ y hy

/-- The selected candidate scores at least every candidate and is the
lexically least among the maximizers. -/
theorem selectBest_spec (S : List Sample) (b : ℕ × ℚ) (h : selectBest S = some b) :
    b ∈ candidates S ∧
    (∀ c ∈ candidates S, splitScore S c.1 c.2 ≤ splitScore S b.1 b.2) ∧
    (∀ c ∈ candidates S, splitScore S c.1 c.2 = splitScore S b.1 b.2 → lexLE b c) := by
  have hpw := pairwise_lex_candidates S
  have hmem := selectBest_mem S b h
  unfold selectBest at h
  rcases hc : candidates S with _ | ⟨x, xs⟩ <;> rw [hc] at h hpw hmem <;>
    [skip; simp only [Option.some.injEq] at h]
  · simp at h
  · rcases argmaxFrom_spec (fun p => splitScore S p.1 p.2) xs x with
      ⟨heq, hmax⟩ | ⟨l₁, z, l₂, hxs, heq, hlt, hl₁, hl₂⟩
    · have hb : b = x := by rw [← h, heq]
      subst hb
      refine ⟨hmem, ?_, ?_⟩
      · intro c hcm
        rcases List.mem_cons.mp hcm with rfl | hcm
        · exact le_rfl
        · exact hmax c hcm
      · intro c hcm _
        rcases List.mem_cons.mp hcm with rfl | hcm
        · exact lexLE_refl c
        · exact lexLT_le _ _ ((List.pairwise_cons.mp hpw).1 c hcm)
    · have hb : b = z := by rw [← h, heq]
      subst hb
      subst hxs
      have hsub : (b :: l₂).Sublist (x :: (l₁ ++ b :: l₂)) :=
        (List.sublist_append_right l₁ (b :: l₂)).cons x
      have hpwz : (b :: l₂).Pairwise lexLT := hpw.sublist hsub
      refine ⟨hmem, ?_, ?_⟩
      · intro c hcm
        rcases List.mem_cons.mp hcm with rfl | hcm
        · exact le_of_lt hlt
        · rcases List.mem_append.mp hcm with hcm | hcm
          · exact le_of_lt (hl₁ c hcm)
          · rcases List.mem_cons.mp hcm with rfl | hcm
            · exact le_rfl
            · exact hl₂ c hcm
      · intro c hcm htie
        rcases List.mem_cons.mp hcm with rfl | hcm
        · exact absurd htie (ne_of_lt hlt)
        · rcases List.mem_append.mp hcm with hcm | hcm
          · exact absurd htie (ne_of_lt (hl₁ c hcm))
          · rcases List.mem_cons.mp hcm with rfl | hcm
            · exact lexLE_refl c
            · exact lexLT_le _ _ ((List.pairwise_cons.mp hpwz).1 c hcm)

theorem selectBest_eq_none (S : List Sample) :
    selectBest S = none ↔ candidates S = [] := by
  unfold selectBest
  rcases hc : candidates S with _ | ⟨x, xs⟩ <;> simp

/-! ## Separating a minimal or maximal sample -/

theorem allEqual_eq_false (ys : List ℚ) (hnd : ys.Nodup) (h2 : 2 ≤ ys.length) :
    allEqual ys = false := by
  match ys, h2 with
  | y :: z :: t, _ =>
    rcases List.nodup_cons.mp hnd with ⟨hy, -⟩
    unfold allEqual
    rw [Bool.eq_false_iff]
    intro hall
    rcases List.all_eq_true.mp hall z (List.mem_cons_self _ _) with h
    have : z = y := by simpa using h
    exact hy (this ▸ List.mem_cons_self _ _)

theorem filter_eq_singleton_of_nodup_map (f : Sample → ℚ) (S : List Sample)
    (hnd : (S.map f).Nodup) (v : ℚ) (hv : v ∈ S.map f) :
    ∃ a ∈ S, f a = v ∧ S.filter (fun s => f s = v) = [a] := by
  induction S with
  | nil => simp at hv
  | cons x t ih =>
    rw [List.map_cons] at hnd
    rcases List.nodup_cons.mp hnd with ⟨hx, ht⟩
    by_cases hfx : f x = v
    · refine ⟨x, List.mem_cons_self _ _, hfx, ?_⟩
      have hnil : t.filter (fun s => decide (f s = v)) = [] := by
        apply List.filter_eq_nil_iff.mpr
        intro s hs
        simp only [decide_eq_true_eq]
        intro hfs
        exact hx (hfx ▸ hfs ▸ List.mem_map_of_mem f hs)
      simp [List.filter_cons, hfx, hnil]
    · have hvt : v ∈ t.map f := by
        rcases List.mem_map.mp hv with ⟨a, ha, rfl⟩
        rcases List.mem_cons.mp ha with rfl | ha
        · exact absurd rfl hfx
        · exact List.mem_map_of_mem f ha
      rcases ih ht hvt with ⟨a, ha, hfa, hfilter⟩
      exact ⟨a, List.mem_cons.mpr (Or.inr ha), hfa, by
        simp only [List.filter_cons]
        simp [hfx, hfilter]⟩

/-- The first midpoint of a strictly ascending list cuts off exactly the
minimum. -/
theorem first_cut (a b : ℚ) (rest : List ℚ)
    (hl : (a :: b :: rest).Pairwise (· < ·)) :
    (a + b) / 2 ∈ midpoints (a :: b :: rest) ∧
    (∀ x ∈ a :: b :: rest, a ≤ x) ∧
    (∀ x ∈ a :: b :: rest, (x ≤ (a + b) / 2 ↔ x = a)) := by
  rcases List.pairwise_cons.mp hl with ⟨ha, htail⟩
  have hab : a < b := ha b (List.mem_cons_self _ _)
  refine ⟨List.mem_cons_self _ _, ?_, ?_⟩
  · intro x hx
    rcases List.mem_cons.mp hx with rfl | hx
    · exact le_rfl
    · exact le_of_lt (ha x hx)
  · intro x hx
    rcases List.mem_cons.mp hx with rfl | hx
    · constructor
      · intro _; rfl
      · intro _; linarith
    · have hbx : b ≤ x := by
        rcases List.mem_cons.mp hx with rfl | hx
        · exact le_rfl
        · exact le_of_lt ((List.pairwise_cons.mp htail).1 x hx)
      constructor
      · intro hle; linarith
      · intro hxa
        exact absurd (hxa ▸ ha x hx) (lt_irrefl a)

/-- Some midpoint of a strictly ascending list (of length ≥ 2) cuts off
exactly the maximum. -/
theorem last_cut (l : List ℚ) (hl : l.Pairwise (· < ·)) (h2 : 2 ≤ l.length) :
    ∃ t ∈ midpoints l, ∃ vmax ∈ l, (∀ x ∈ l, x ≤ vmax) ∧
      (∀ x ∈ l, (t < x ↔ x = vmax)) := by
  induction l with
  | nil => simp at h2
  | cons a l ih =>
    match l, h2 with
    | b :: rest, _ =>
      rcases List.pairwise_cons.mp hl with ⟨ha, htail⟩
      have hab : a < b := ha b (List.mem_cons_self _ _)
      cases rest with
      | nil =>
        refine ⟨(a + b) / 2, List.mem_cons_self _ _, b,
          List.mem_cons.mpr (Or.inr (List.mem_cons_self _ _)), ?_, ?_⟩
        · intro x hx
          rcases List.mem_cons.mp hx with rfl | hx
          · exact le_of_lt hab
          · rcases List.mem_cons.mp hx with rfl | hx
            · exact le_rfl
            · simp at hx
        · intro x hx
          rcases List.mem_cons.mp hx with rfl | hx
          · constructor
            · intro h; linarith
            · intro h; exact absurd (h ▸ hab) (lt_irrefl x)
          · rcases List.mem_cons.mp hx with rfl | hx
            · constructor
              · intro _; rfl
              · intro _; linarith
            · simp at hx
      | cons c rest' =>
        rcases ih htail (by simp) with ⟨t, htm, vmax, hvm, hbound, hiff⟩
        refine ⟨t, List.mem_cons.mpr (Or.inr htm), vmax,
          List.mem_cons.mpr (Or.inr hvm), ?_, ?_⟩
        · intro x hx
          rcases List.mem_cons.mp hx with rfl | hx
          · exact le_of_lt (lt_of_lt_of_le hab (hbound b (List.mem_cons_self _ _)))
          · exact hbound x hx
        · intro x hx
          rcases List.mem_cons.mp hx with rfl | hx
          · have hxvmax : x < vmax :=
              lt_of_lt_of_le hab (hbound b (List.mem_cons_self _ _))
            have hnot : ¬ t < x := by
              rcases (midpoints_sep _ htail t htm).1 with ⟨z, hz, hzt⟩
              have hbz : b ≤ z := by
                rcases List.mem_cons.mp hz with rfl | hz
                · exact le_rfl
                · exact le_of_lt ((List.pairwise_cons.mp htail).1 z hz)
              intro hcon
              linarith
            constructor
            · intro h; exact absurd h hnot
            · intro h; exact absurd h (ne_of_lt hxvmax)
          · exact hiff x hx

theorem mem_candidates_of_threshold (S : List Sample) (j : ℕ) (t : ℚ)
    (hj : j < nFeatures S) (ht : t ∈ thresholds S j) : (j, t) ∈ candidates S := by
  unfold candidates
  exact List.mem_flatMap.mpr ⟨j, List.mem_range.mpr hj, List.mem_map_of_mem _ ht⟩

/-- When the two part means agree, each equals the overall mean. -/
theorem mean_eq_of_parts (S : List Sample) (j : ℕ) (t : ℚ)
    (hl : leftOf S j t ≠ []) (hr : rightOf S j t ≠ [])
    (heq : mean (targets (leftOf S j t)) = mean (targets (rightOf S j t))) :
    mean (targets S) = mean (targets (leftOf S j t)) := by
  have hperm := targets_perm S j t
  have hsum : (targets (leftOf S j t)).sum + (targets (rightOf S j t)).sum
      = (targets S).sum := by
    rw [← List.sum_append]; exact hperm.sum_eq
  have hlen : (targets (leftOf S j t)).length + (targets (rightOf S j t)).length
      = (targets S).length := by
    rw [← List.length_append]; exact hperm.length_eq
  have hla : 0 < (targets (leftOf S j t)).length := by
    simpa [length_targets, List.length_pos] using hl
  have hlb : 0 < (targets (rightOf S j t)).length := by
    simpa [length_targets, List.length_pos] using hr
  have hlaQ : ((targets (leftOf S j t)).length : ℚ) ≠ 0 := by positivity
  have hlbQ : ((targets (rightOf S j t)).length : ℚ) ≠ 0 := by positivity
  unfold mean at heq ⊢
  rw [← hsum, ← hlen]
  rw [div_eq_div_iff hlaQ hlbQ] at heq
  push_cast
  have hnQ : ((targets (leftOf S j t)).length : ℚ) +
      ((targets (rightOf S j t)).length : ℚ) ≠ 0 := by positivity
  rw [div_eq_div_iff hnQ hlaQ]
  ring_nf
  ring_nf at heq
  linarith [heq]

/-- Under pairwise-distinct targets and a feature coordinate that is
injective on the subset, some candidate split has strictly positive
score. -/
theorem exists_pos_candidate (S : List Sample) (d j : ℕ)
    (hw : ∀ s ∈ S, s.1.length = d) (hj : j < d)
    (hnd : (featVals S j).Nodup) (hnt : (targets S).Nodup) (h2 : 2 ≤ S.length) :
    ∃ c ∈ candidates S, 0 < splitScore S c.1 c.2 := by
  have hnf : nFeatures S = d := by
    cases S with
    | nil => simp at h2
    | cons s S' => simpa [nFeatures] using hw s (List.mem_cons_self _ _)
  have hjn : j < nFeatures S := hnf ▸ hj
  obtain ⟨w₁, w₂, wrest, hfv⟩ : ∃ w₁ w₂ r, featVals S j = w₁ :: w₂ :: r := by
    have hlen : 2 ≤ (featVals S j).length := by
      simpa [featVals] using h2
    match hfv : featVals S j, hlen with
    | x :: y :: r, _ => exact ⟨x, y, r, rfl⟩
  have hw12 : w₁ ≠ w₂ := by
    rw [hfv] at hnd
    rcases List.nodup_cons.mp hnd with ⟨h1, -⟩
    intro h
    exact h1 (h ▸ List.mem_cons_self _ _)
  have hw1 : w₁ ∈ sortedDistinct (featVals S j) := by
    rw [mem_sortedDistinct, hfv]; exact List.mem_cons_self _ _
  have hw2 : w₂ ∈ sortedDistinct (featVals S j) := by
    rw [mem_sortedDistinct, hfv]
    exact List.mem_cons.mpr (Or.inr (List.mem_cons_self _ _))
  obtain ⟨a, b, vrest, hvsform⟩ :
      ∃ a b r, sortedDistinct (featVals S j) = a :: b :: r := by
    cases hv : sortedDistinct (featVals S j) with
    | nil => rw [hv] at hw1; simp at hw1
    | cons a l2 =>
      cases hl2 : l2 with
      | nil =>
        rw [hv, hl2] at hw1 hw2
        simp at hw1 hw2
        exact absurd (hw1.trans hw2.symm) hw12
      | cons b r => exact ⟨a, b, r, by simp [hv, hl2]⟩
  have hpw' : (a :: b :: vrest).Pairwise (· < ·) :=
    hvsform ▸ pairwise_sortedDistinct (featVals S j)
  have hab : a < b := (List.pairwise_cons.mp hpw').1 b (List.mem_cons_self _ _)
  have hth : thresholds S j = midpoints (a :: b :: vrest) := by
    rw [thresholds, hvsform]
  have hcoordvs : ∀ s ∈ S, s.1.getD j 0 ∈ a :: b :: vrest := by
    intro s hs
    rw [← hvsform, mem_sortedDistinct]
    exact List.mem_map_of_mem _ hs
  obtain ⟨ht₁m, hminb, hiff₁⟩ := first_cut a b vrest hpw'
  obtain ⟨t₂, ht₂m, vmax, hvmaxm, hmaxb, hiff₂⟩ :=
    last_cut (a :: b :: vrest) hpw' (by simp)
  have hc₁ : (j, (a + b) / 2) ∈ candidates S :=
    mem_candidates_of_threshold S j _ hjn (by rw [hth]; exact ht₁m)
  have hc₂ : (j, t₂) ∈ candidates S :=
    mem_candidates_of_threshold S j _ hjn (by rw [hth]; exact ht₂m)
  have hamax : a < vmax := lt_of_lt_of_le hab (hmaxb b
    (List.mem_cons.mpr (Or.inr (List.mem_cons_self _ _))))
  have ha_fv : a ∈ S.map (fun s => s.1.getD j 0) := by
    have : a ∈ sortedDistinct (featVals S j) := by
      rw [hvsform]; exact List.mem_cons_self _ _
    rw [mem_sortedDistinct] at this
    exact this
  have hvmax_fv : vmax ∈ S.map (fun s => s.1.getD j 0) := by
    have : vmax ∈ sortedDistinct (featVals S j) := by rw [hvsform]; exact hvmaxm
    rw [mem_sortedDistinct] at this
    exact this
  have hL₁ : leftOf S j ((a + b) / 2) = S.filter (fun s => s.1.getD j 0 = a) := by
    unfold leftOf
    apply List.filter_congr
    intro s hs
    unfold goesLeft
    exact decide_eq_decide.mpr (hiff₁ _ (hcoordvs s hs))
  obtain ⟨smin, hsminS, hsmincoord, hsingle₁⟩ :=
    filter_eq_singleton_of_nodup_map (fun s => s.1.getD j 0) S hnd a ha_fv
  have hL₁s : leftOf S j ((a + b) / 2) = [smin] := hL₁.trans hsingle₁
  have hR₂ : rightOf S j t₂ = S.filter (fun s => s.1.getD j 0 = vmax) := by
    unfold rightOf
    apply List.filter_congr
    intro s hs
    unfold goesLeft
    apply decide_eq_decide.mpr
    simp only [decide_eq_true_eq, not_le]
    exact hiff₂ _ (hcoordvs s hs)
  obtain ⟨smax, hsmaxS, hsmaxcoord, hsingle₂⟩ :=
    filter_eq_singleton_of_nodup_map (fun s => s.1.getD j 0) S hnd vmax hvmax_fv
  have hR₂s : rightOf S j t₂ = [smax] := hR₂.trans hsingle₂
  have hL₁ne : leftOf S j ((a + b) / 2) ≠ [] := by rw [hL₁s]; simp
  have hR₂ne : rightOf S j t₂ ≠ [] := by rw [hR₂s]; simp
  have hR₁ne : rightOf S j ((a + b) / 2) ≠ [] := by
    intro hnil
    have hmem : smax ∈ rightOf S j ((a + b) / 2) := by
      apply List.mem_filter.mpr
      refine ⟨hsmaxS, ?_⟩
      have hnle : ¬ vmax ≤ (a + b) / 2 := by
        intro hle
        exact (ne_of_gt hamax) ((hiff₁ vmax hvmaxm).mp hle)
      simp only [goesLeft, hsmaxcoord]
      simpa using hnle
    rw [hnil] at hmem
    simp at hmem
  have hL₂ne : leftOf S j t₂ ≠ [] := by
    intro hnil
    have hmem : smin ∈ leftOf S j t₂ := by
      apply List.mem_filter.mpr
      refine ⟨hsminS, ?_⟩
      have hle : a ≤ t₂ := by
        have hnlt : ¬ t₂ < a := by
          intro hcon
          exact (ne_of_lt hamax) ((hiff₂ a (List.mem_cons_self _ _)).mp hcon)
        exact not_lt.mp hnlt
      simp only [goesLeft, hsmincoord]
      simpa using hle
    rw [hnil] at hmem
    simp at hmem
  by_cases hp₁ : 0 < splitScore S j ((a + b) / 2)
  · exact ⟨(j, (a + b) / 2), hc₁, hp₁⟩
  by_cases hp₂ : 0 < splitScore S j t₂
  · exact ⟨(j, t₂), hc₂, hp₂⟩
  exfalso
  have heq₁ : mean (targets (leftOf S j ((a + b) / 2)))
      = mean (targets (rightOf S j ((a + b) / 2))) := by
    by_contra hne
    exact hp₁ (splitScore_pos S j _ hL₁ne hR₁ne hne)
  have heq₂ : mean (targets (leftOf S j t₂)) = mean (targets (rightOf S j t₂)) := by
    by_contra hne
    exact hp₂ (splitScore_pos S j _ hL₂ne hR₂ne hne)
  have hμ₁ : mean (targets S) = mean (targets (leftOf S j ((a + b) / 2))) :=
    mean_eq_of_parts S j _ hL₁ne hR₁ne heq₁
  have hμ₂ : mean (targets S) = mean (targets (leftOf S j t₂)) :=
    mean_eq_of_parts S j _ hL₂ne hR₂ne heq₂
  have hsmin2 : smin.2 = mean (targets S) := by
    rw [hμ₁, hL₁s]
    simp [targets, mean_singleton]
  have hsmax2 : smax.2 = mean (targets S) := by
    have hmr : mean (targets (rightOf S j t₂)) = smax.2 := by
      rw [hR₂s]
      simp [targets, mean_singleton]
    rw [← hmr, ← heq₂, ← hμ₂]
  have hsame : smin.2 = smax.2 := hsmin2.trans hsmax2.symm
  have hnemm : smin ≠ smax := by
    intro h
    apply ne_of_lt hamax
    rw [← hsmincoord, h, hsmaxcoord]
  exact hnemm (List.inj_on_of_nodup_map hnt hsminS hsmaxS hsame)

/-! ## Unfolding equations of the builder -/

theorem decDepth_none : decDepth none = none := rfl

theorem buildNode_leaf₁ (S : List Sample) (d : Option ℕ) (ms ml : ℕ)
    (h1 : S.length < ms ∨ depthDone d ∨ allEqual (targets S) = true) :
    buildNode S d ms ml = .leaf (mean (targets S)) := by
  rw [buildNode, if_pos h1]

theorem buildNode_leaf₂ (S : List Sample) (d : Option ℕ) (ms ml : ℕ)
    (h1 : ¬(S.length < ms ∨ depthDone d ∨ allEqual (targets S) = true))
    (hsel : selectBest S = none) :
    buildNode S d ms ml = .leaf (mean (targets S)) := by
  rw [buildNode, if_neg h1, hsel]

theorem buildNode_leaf₃ (S : List Sample) (d : Option ℕ) (ms ml : ℕ) (j : ℕ) (t : ℚ)
    (h1 : ¬(S.length < ms ∨ depthDone d ∨ allEqual (targets S) = true))
    (hsel : selectBest S = some (j, t))
    (h2 : (leftOf S j t).length < ml ∨ (rightOf S j t).length < ml ∨
      splitScore S j t ≤ 0) :
    buildNode S d ms ml = .leaf (mean (targets S)) := by
  rw [buildNode, if_neg h1, hsel]
  exact if_pos h2

theorem buildNode_split (S : List Sample) (d : Option ℕ) (ms ml : ℕ) (j : ℕ) (t : ℚ)
    (h1 : ¬(S.length < ms ∨ depthDone d ∨ allEqual (targets S) = true))
    (hsel : selectBest S = some (j, t))
    (h2 : ¬((leftOf S j t).length < ml ∨ (rightOf S j t).length < ml ∨
      splitScore S j t ≤ 0)) :
    buildNode S d ms ml =
      .split j t (buildNode (leftOf S j t) (decDepth d) ms ml)
                 (buildNode (rightOf S j t) (decDepth d) ms ml) := by
  rw [buildNode, if_neg h1, hsel]
  exact if_neg h2

theorem selectBest_nil : selectBest ([] : List Sample) = none := rfl

/-! ## The fully separating build -/

/-- A tree fits its subset perfectly: every leaf covers exactly one
sample and stores that sample's target. -/
inductive PerfectFit : Node → List Sample → Prop where
  | leaf (fv : List ℚ) (y : ℚ) : PerfectFit (.leaf y) [(fv, y)]
  | split (j : ℕ) (t : ℚ) (l r : Node) (S : List Sample) :
      PerfectFit l (leftOf S j t) → PerfectFit r (rightOf S j t) →
      PerfectFit (.split j t l r) S

theorem perfectFit_traverse (n : Node) (S : List Sample) (hp : PerfectFit n S) :
    ∀ s ∈ S, traverse n s.1 = s.2 := by
  induction hp with
  | leaf fv y =>
    intro s hs
    rw [List.mem_singleton.mp hs]
    rfl
  | split j t l r S hl hr ihl ihr =>
    intro s hs
    by_cases hg : goesLeft j t s.1 = true
    · have hsl : s ∈ leftOf S j t := List.mem_filter.mpr ⟨hs, hg⟩
      simpa [traverse, hg] using ihl s hsl
    · have hsr : s ∈ rightOf S j t := List.mem_filter.mpr ⟨hs, by simpa using hg⟩
      simpa [traverse, hg] using ihr s hsr

theorem perfect_buildNode (N : ℕ) :
    ∀ (S : List Sample) (d j : ℕ),
      S.length ≤ N → S ≠ [] →
      (∀ s ∈ S, s.1.length = d) → j < d →
      (featVals S j).Nodup → (targets S).Nodup →
      PerfectFit (buildNode S none 2 1) S := by
  induction N with
  | zero =>
    intro S d j hN hne _ _ _ _
    exact absurd (List.length_eq_zero.mp (Nat.le_zero.mp hN)) hne
  | succ N ih =>
    intro S d j hN hne hw hj hndf hndt
    by_cases hlen : S.length < 2
    · obtain ⟨s, rfl⟩ : ∃ s, S = [s] := by
        match S, hne, hlen with
        | [s], _, _ => exact ⟨s, rfl⟩
      rw [buildNode_leaf₁ [s] none 2 1 (Or.inl (by simp))]
      have : mean (targets [s]) = s.2 := by
        simp [targets, mean_singleton]
      rw [this]
      have := PerfectFit.leaf s.1 s.2
      simpa using this
    · have h2len : 2 ≤ S.length := not_lt.mp hlen
      have h1 : ¬(S.length < 2 ∨ depthDone (none : Option ℕ) ∨
          allEqual (targets S) = true) := by
        intro hcon
        rcases hcon with h | h | h
        · exact hlen h
        · simpa [depthDone] using h
        · rw [allEqual_eq_false (targets S) hndt (by
            rw [length_targets]; exact h2len)] at h
          exact Bool.false_ne_true h
      obtain ⟨c, hcmem, hcpos⟩ := exists_pos_candidate S d j hw hj hndf hndt h2len
      rcases hsel : selectBest S with _ | ⟨jb, tb⟩
      · rw [selectBest_eq_none] at hsel
        rw [hsel] at hcmem
        simp at hcmem
      · obtain ⟨hbmem, hbmax, hbtie⟩ := selectBest_spec S (jb, tb) hsel
        have hbpos : 0 < splitScore S jb tb := lt_of_lt_of_le hcpos (hbmax c hcmem)
        obtain ⟨hLne, hRne⟩ := splitScore_pos_parts S jb tb hbpos
        have h2 : ¬((leftOf S jb tb).length < 1 ∨ (rightOf S jb tb).length < 1 ∨
            splitScore S jb tb ≤ 0) := by
          intro hcon
          rcases hcon with h | h | h
          · exact absurd (List.length_pos.mpr hLne) (by omega)
          · exact absurd (List.length_pos.mpr hRne) (by omega)
          · exact absurd hbpos (not_lt.mpr h)
        rw [buildNode_split S none 2 1 jb tb h1 hsel h2, decDepth_none]
        have hparts := selectBest_parts_lt S jb tb hsel
        apply PerfectFit.split
        · exact ih (leftOf S jb tb) d j (by omega) hLne
            (fun s hs => hw s (List.mem_filter.mp hs).1) hj
            (hndf.sublist ((List.filter_sublist S).map _))
            (hndt.sublist ((List.filter_sublist S).map _))
        · exact ih (rightOf S jb tb) d j (by omega) hRne
            (fun s hs => hw s (List.mem_filter.mp hs).1) hj
            (hndf.sublist ((List.filter_sublist S).map _))
            (hndt.sublist ((List.filter_sublist S).map _))

/-! ## Dimension bounds and leaf values -/

theorem requiredDim_buildNode_le (N : ℕ) :
    ∀ (S : List Sample) (dep : Option ℕ) (ms ml dd : ℕ),
      S.length ≤ N → (∀ s ∈ S, s.1.length = dd) →
      requiredDim (buildNode S dep ms ml) ≤ dd := by
  induction N with
  | zero =>
    intro S dep ms ml dd hN _
    have hS : S = [] := List.length_eq_zero.mp (Nat.le_zero.mp hN)
    subst hS
    rw [buildNode_leaf₁ [] dep ms ml (Or.inr (Or.inr rfl))]
    simp [requiredDim]
  | succ N ih =>
    intro S dep ms ml dd hN hw
    by_cases h1 : S.length < ms ∨ depthDone dep ∨ allEqual (targets S) = true
    · rw [buildNode_leaf₁ S dep ms ml h1]; simp [requiredDim]
    · rcases hsel : selectBest S with _ | ⟨jb, tb⟩
      · rw [buildNode_leaf₂ S dep ms ml h1 hsel]; simp [requiredDim]
      · by_cases h2 : (leftOf S jb tb).length < ml ∨ (rightOf S jb tb).length < ml ∨
            splitScore S jb tb ≤ 0
        · rw [buildNode_leaf₃ S dep ms ml jb tb h1 hsel h2]; simp [requiredDim]
        · rw [buildNode_split S dep ms ml jb tb h1 hsel h2]
          have hparts := selectBest_parts_lt S jb tb hsel
          have hSne : S ≠ [] := by
            intro hS
            subst hS
            rw [selectBest_nil] at hsel
            exact Option.noConfusion hsel
          have hjd : jb < dd := by
            have h := candidates_fst_lt S (jb, tb) (selectBest_mem S _ hsel)
            cases S with
            | nil => exact absurd rfl hSne
            | cons s S' =>
              have hnf : nFeatures (s :: S') = s.1.length := rfl
              rw [hnf, hw s (List.mem_cons_self _ _)] at h
              exact h
          have hL := ih (leftOf S jb tb) (decDepth dep) ms ml dd (by omega)
            (fun s hs => hw s (List.mem_filter.mp hs).1)
          have hR := ih (rightOf S jb tb) (decDepth dep) ms ml dd (by omega)
            (fun s hs => hw s (List.mem_filter.mp hs).1)
          simp only [requiredDim, Nat.max_le]
          exact ⟨hjd, hL, hR⟩

theorem traverse_mem_leafValues (n : Node) (fv : List ℚ) :
    traverse n fv ∈ leafValues n := by
  induction n with
  | leaf v => simp [traverse, leafValues]
  | split j t l r ihl ihr =>
    simp only [traverse, leafValues]
    by_cases h : goesLeft j t fv = true
    · rw [if_pos h]
      exact List.mem_append_left _ ihl
    · rw [if_neg h]
      exact List.mem_append_right _ ihr

theorem mem_featuresOf_lt_requiredDim (n : Node) (j : ℕ)
    (h : j ∈ featuresOf n) : j < requiredDim n := by
  induction n with
  | leaf v => simp [featuresOf] at h
  | split j' t l r ihl ihr =>
    simp only [featuresOf, List.mem_cons, List.mem_append] at h
    simp only [requiredDim]
    rcases h with rfl | h | h
    · omega
    · have := ihl h; omega
    · have := ihr h; omega

/-! ## The notebook's concrete data -/

/-- The spec's scenario training set:
`{(1,45000),(2,50000),(3,60000),(4,80000),(5,110000)}`. -/
def posSalaries : List Sample :=
  [([1], 45000), ([2], 50000), ([3], 60000), ([4], 80000), ([5], 110000)]

/-- One row of `Position_Salaries.csv`: column 0 the position title,
column 1 the level, column 2 the salary. -/
structure Row where
  position : String
  level : ℚ
  salary : ℚ

/-- `X = dataset.iloc[:, 1:2].values`: the feature matrix holds only
column 1 (Level), one-entry rows. -/
def featureColumn (rows : List Row) : List (List ℚ) := rows.map (fun r => [r.level])

/-- `y = dataset.iloc[:, 2].values`: the target vector holds only
column 2 (Salary). -/
def targetColumn (rows : List Row) : List ℚ := rows.map Row.salary

/-- The training set the notebook's `fit(X, y)` receives. -/
def toSamples (rows : List Row) : List Sample :=
  (featureColumn rows).zip (targetColumn rows)

/-- `DecisionTreeRegressor(random_state=0).fit(X, y)`, modelled with the
spec's regressor at the library defaults (`max_depth=None`,
`min_samples_split=2`, `min_samples_leaf=1`). -/
def fitNotebook (rows : List Row) : Except BuildError Node :=
  build (toSamples rows) none 2 1

/-- `regressor.predict(X_grid)` over a grid of levels. -/
def predictNotebook (rows : List Row) (grid : List ℚ) :
    Except BuildError (List (Except PredictError ℚ)) :=
  (fitNotebook rows).map (fun tr => predict_many tr (grid.map (fun q => [q])))

/-- Shared concrete computation: two samples with the same feature vector
and different targets admit no candidate split, so the build stops at one
leaf holding the mean target. -/
theorem buildNode_pair_same_feature :
    buildNode [(([1] : List ℚ), (0 : ℚ)), ([1], 1)] none 2 1 = .leaf (1 / 2) := by
  rw [← buildNodeF_eq 2 _ none 2 1 (by norm_num)]
  norm_num [buildNodeF, selectBest, candidates, nFeatures, thresholds, featVals,
    sortedDistinct, insertDistinct, midpoints, List.range_succ, List.range_zero,
    List.flatMap_cons, List.flatMap_nil, List.getD, allEqual, depthDone, targets,
    mean]

/-! ## The claims -/

/-- C2: every tree returned by `build` satisfies the structural invariant
`Routed`: each Split Node's children are built from exactly the `leftOf`
(feature ≤ threshold) and `rightOf` (complementary) parts of the parent's
subset, and each Leaf Node stores the mean of its subset's targets;
moreover the two parts of any split are a permutation of the parent
subset (union exact, no omission, no duplication) and never overlap. -/
theorem build_satisfies_routing_invariant (S : List Sample) (md : Option ℕ)
    (ms ml : ℕ) (tr : Node) (h : build S md ms ml = .ok tr) :
    Routed tr S ∧
    ∀ (T : List Sample) (j : ℕ) (t : ℚ),
      (leftOf T j t ++ rightOf T j t).Perm T ∧
      ∀ s : Sample, ¬(s ∈ leftOf T j t ∧ s ∈ rightOf T j t) := by
  constructor
  · have htr : tr = buildNode S md ms ml := by
      cases S with
      | nil => simp [build] at h
      | cons s S' =>
        have : build (s :: S') md ms ml = .ok (buildNode (s :: S') md ms ml) := rfl
        rw [this] at h
        exact (Except.ok.injEq _ _ ▸ h).symm
    rw [htr]
    exact routed_buildNode S md ms ml
  · intro T j t
    exact ⟨leftOf_append_rightOf_perm T j t, leftOf_rightOf_disjoint T j t⟩

/-- C2 witness: the invariant instantiated on a one-sample build. -/
theorem build_satisfies_routing_invariant_witness :
    Routed (.leaf (5 : ℚ)) [(([0] : List ℚ), (5 : ℚ))] ∧
    ∀ (T : List Sample) (j : ℕ) (t : ℚ),
      (leftOf T j t ++ rightOf T j t).Perm T ∧
      ∀ s : Sample, ¬(s ∈ leftOf T j t ∧ s ∈ rightOf T j t) :=
  build_satisfies_routing_invariant [(([0] : List ℚ), (5 : ℚ))] none 2 1
    (.leaf 5) (by
      rw [show build [(([0] : List ℚ), (5 : ℚ))] none 2 1
          = .ok (buildNode [(([0] : List ℚ), (5 : ℚ))] none 2 1) from rfl,
        buildNode_leaf₁ _ _ _ _ (Or.inl (by norm_num))]
      norm_num [targets, mean])

/-- C6: `build` fails with `InvalidInput` exactly on the empty sample
sequence; on any non-empty training set it succeeds, and `predict` on the
built tree is defined (returns an `Except.ok` holding a rational, hence
finite, value) for every query vector of the training set's dimension. -/
theorem build_error_iff_empty_and_predict_total (S : List Sample) (md : Option ℕ)
    (ms ml : ℕ) :
    (build S md ms ml = .error .InvalidInput ↔ S = []) ∧
    (S ≠ [] → build S md ms ml = .ok (buildNode S md ms ml)) ∧
    (∀ dd : ℕ, (∀ s ∈ S, s.1.length = dd) → ∀ x : List ℚ, dd ≤ x.length →
      predict (buildNode S md ms ml) x = .ok (traverse (buildNode S md ms ml) x)) := by
  refine ⟨?_, ?_, ?_⟩
  · cases S with
    | nil => simp [build]
    | cons s S' =>
      constructor
      · intro h
        rw [show build (s :: S') md ms ml
            = .ok (buildNode (s :: S') md ms ml) from rfl] at h
        exact Except.noConfusion h
      · intro h
        exact List.noConfusion h
  · intro hne
    cases S with
    | nil => exact absurd rfl hne
    | cons s S' => rfl
  · intro dd hw x hx
    unfold predict
    rw [if_neg (not_lt.mpr (le_trans
      (requiredDim_buildNode_le S.length S md ms ml dd le_rfl hw) hx))]

/-- C7: `predict` fails with `DimensionMismatch` whenever the query
vector is shorter than a feature index referenced by the tree; the call
is pure, so the failure is confined to it and the tree value is
untouched. -/
theorem predict_dimension_mismatch (tree : Node) (fv : List ℚ) (j : ℕ)
    (hj : j ∈ featuresOf tree) (hshort : fv.length < j) :
    predict tree fv = .error .DimensionMismatch := by
  unfold predict
  rw [if_pos]
  have := mem_featuresOf_lt_requiredDim tree j hj
  omega

/-- C7 witness: a tree referencing feature 2 rejects a length-1 query. -/
theorem predict_dimension_mismatch_witness :
    predict (.split 2 0 (.leaf 1) (.leaf 2)) [5] = .error .DimensionMismatch :=
  predict_dimension_mismatch (.split 2 0 (.leaf 1) (.leaf 2)) [5] 2
    (by simp [featuresOf]) (by norm_num)

/-- C8: batch prediction yields exactly one prediction per input vector,
in input order: it equals mapping `predict` over the input sequence, and
in particular has the same length. -/
theorem predict_many_eq_map (tree : Node) (fvs : List (List ℚ)) :
    predict_many tree fvs = fvs.map (predict tree) ∧
    (predict_many tree fvs).length = fvs.length := by
  have h : predict_many tree fvs = fvs.map (predict tree) := by
    induction fvs with
    | nil => rfl
    | cons fv rest ih => simp [predict_many, ih]
  exact ⟨h, by rw [h, List.length_map]⟩

/-- C9: a single-sample training set builds a single Leaf Node holding
that sample's target, for every choice of depth limit,
`min_samples_split` and `min_samples_leaf`. -/
theorem single_sample_builds_leaf (fv : List ℚ) (y : ℚ) (md : Option ℕ)
    (ms ml : ℕ) :
    build [(fv, y)] md ms ml = .ok (.leaf y) := by
  rw [show build [(fv, y)] md ms ml = .ok (buildNode [(fv, y)] md ms ml) from rfl,
    buildNode_leaf₁ [(fv, y)] md ms ml (Or.inr (Or.inr rfl))]
  have : mean (targets [(fv, y)]) = y := by
    simp [targets, mean_singleton]
  rw [this]

/-- C10: only the Level column enters the feature matrix and only the
Salary column the target; two datasets agreeing on those two columns but
differing arbitrarily in the Position string column produce identical
fitted models and identical predictions on every grid. -/
theorem position_column_never_influences (ds₁ ds₂ : List Row)
    (hlev : ds₁.map Row.level = ds₂.map Row.level)
    (hsal : ds₁.map Row.salary = ds₂.map Row.salary) :
    fitNotebook ds₁ = fitNotebook ds₂ ∧
    ∀ grid : List ℚ, predictNotebook ds₁ grid = predictNotebook ds₂ grid := by
  have hsam : toSamples ds₁ = toSamples ds₂ := by
    unfold toSamples featureColumn targetColumn
    rw [hsal]
    have h1 : ds₁.map (fun r => [r.level]) = (ds₁.map Row.level).map (fun q => [q]) := by
      rw [List.map_map]; rfl
    have h2 : ds₂.map (fun r => [r.level]) = (ds₂.map Row.level).map (fun q => [q]) := by
      rw [List.map_map]; rfl
    rw [h1, h2, hlev]
  have hfit : fitNotebook ds₁ = fitNotebook ds₂ := by
    unfold fitNotebook
    rw [hsam]
  refine ⟨hfit, fun grid => ?_⟩
  unfold predictNotebook
  rw [hfit]

/-- C10 witness: changing only the position string leaves the fitted
model unchanged. -/
theorem position_column_never_influences_witness :
    fitNotebook [⟨"Regional Manager", 1, 45000⟩]
      = fitNotebook [⟨"Country Manager", 1, 45000⟩] :=
  (position_column_never_influences
    [⟨"Regional Manager", 1, 45000⟩] [⟨"Country Manager", 1, 45000⟩] rfl rfl).1

/-- C1 counterexample: a node whose subset has ≥ `min_samples_split`
samples, no depth limit and unequal targets, where a best-scoring
candidate exists, yet no candidate at all is installed: the
`min_samples_leaf` fallback (step 4, omitted by the claim) produces a
leaf instead. -/
theorem best_split_guard_counterexample :
    ¬(([(([1] : List ℚ), (0 : ℚ)), ([2], 1), ([3], 4)].length < 2) ∨
      depthDone (none : Option ℕ) ∨
      allEqual (targets [(([1] : List ℚ), (0 : ℚ)), ([2], 1), ([3], 4)]) = true) ∧
    selectBest [(([1] : List ℚ), (0 : ℚ)), ([2], 1), ([3], 4)] = some (0, 5 / 2) ∧
    buildNode [(([1] : List ℚ), (0 : ℚ)), ([2], 1), ([3], 4)] none 2 2
      = .leaf (5 / 3) := by
  refine ⟨?_, ?_, ?_⟩
  · norm_num [depthDone, allEqual, targets]
  · norm_num [selectBest, candidates, nFeatures, thresholds, featVals, sortedDistinct,
      insertDistinct, midpoints, argmaxFrom, List.range_succ, List.range_zero,
      List.flatMap_cons, List.flatMap_nil, List.getD, splitScore, leftOf, rightOf,
      goesLeft, variance, mean, targets, List.filter]
  · rw [← buildNodeF_eq 3 _ none 2 2 (by norm_num)]
    norm_num [buildNodeF, selectBest, candidates, nFeatures, thresholds, featVals,
      sortedDistinct, insertDistinct, midpoints, argmaxFrom, List.range_succ,
      List.range_zero, List.flatMap_cons, List.flatMap_nil, List.getD, splitScore,
      leftOf, rightOf, goesLeft, variance, mean, targets, List.filter, allEqual,
      depthDone, decDepth]

/-- C1 (amended): when a node passes the terminal conditions, a candidate
was selected, and the selected candidate passes the `min_samples_leaf`
and positive-score checks, the build installs exactly that candidate, and
it maximizes the variance-reduction score over every evaluated candidate
`(feature, threshold)` pair, ties broken toward the lower feature index
and then the lower threshold. -/
theorem selected_split_is_lexmin_argmax (S : List Sample) (dep : Option ℕ)
    (ms ml : ℕ) (j : ℕ) (t : ℚ)
    (h1 : ¬(S.length < ms ∨ depthDone dep ∨ allEqual (targets S) = true))
    (hsel : selectBest S = some (j, t))
    (h2 : ¬((leftOf S j t).length < ml ∨ (rightOf S j t).length < ml ∨
      splitScore S j t ≤ 0)) :
    buildNode S dep ms ml =
      .split j t (buildNode (leftOf S j t) (decDepth dep) ms ml)
                 (buildNode (rightOf S j t) (decDepth dep) ms ml) ∧
    (j, t) ∈ candidates S ∧
    (∀ c ∈ candidates S, splitScore S c.1 c.2 ≤ splitScore S j t) ∧
    (∀ c ∈ candidates S, splitScore S c.1 c.2 = splitScore S j t →
      j < c.1 ∨ (j = c.1 ∧ t ≤ c.2)) := by
  obtain ⟨hm, hmax, htie⟩ := selectBest_spec S (j, t) hsel
  exact ⟨buildNode_split S dep ms ml j t h1 hsel h2, hm, hmax, htie⟩

/-- C1 witness: the winning candidate of a two-sample set is a candidate
of that set. -/
theorem selected_split_is_lexmin_argmax_witness :
    ((0 : ℕ), (1 / 2 : ℚ)) ∈ candidates [(([0] : List ℚ), (0 : ℚ)), ([1], 2)] :=
  (selected_split_is_lexmin_argmax [(([0] : List ℚ), (0 : ℚ)), ([1], 2)] none 2 1
    0 (1 / 2)
    (by norm_num [depthDone, allEqual, targets])
    (by norm_num [selectBest, candidates, nFeatures, thresholds, featVals,
      sortedDistinct, insertDistinct, midpoints, argmaxFrom, List.range_succ,
      List.range_zero, List.flatMap_cons, List.flatMap_nil, List.getD])
    (by norm_num [splitScore, leftOf, rightOf, goesLeft, variance, mean, targets,
      List.filter])).2.1

/-- C4 counterexample: a subset with ≥ `min_samples_split` samples, no
depth limit, unequal targets and no best-scoring split at all (every
feature has a single observed value, so there is no candidate); none of
the claim's leaf conditions holds, yet the build produces a leaf, not a
split. -/
theorem leaf_conditions_counterexample :
    ¬(([(([1] : List ℚ), (0 : ℚ)), ([1], 1)].length < 2) ∨
      depthDone (none : Option ℕ) ∨
      allEqual (targets [(([1] : List ℚ), (0 : ℚ)), ([1], 1)]) = true) ∧
    selectBest [(([1] : List ℚ), (0 : ℚ)), ([1], 1)] = none ∧
    buildNode [(([1] : List ℚ), (0 : ℚ)), ([1], 1)] none 2 1 = .leaf (1 / 2) := by
  refine ⟨?_, ?_, buildNode_pair_same_feature⟩
  · norm_num [depthDone, allEqual, targets]
  · norm_num [selectBest, candidates, nFeatures, thresholds, featVals, sortedDistinct,
      insertDistinct, midpoints, List.range_succ, List.range_zero, List.flatMap_cons,
      List.flatMap_nil, List.getD]

/-- C4 (amended): the build produces a Leaf with the subset's mean target
exactly when the subset is below `min_samples_split`, the depth limit is
reached, all targets are equal, no candidate split exists, or the
selected best split would leave a child below `min_samples_leaf` or has
score ≤ 0; otherwise it installs the selected Split and recurses into
both parts. -/
theorem leaf_conditions_characterization (S : List Sample) (dep : Option ℕ)
    (ms ml : ℕ) :
    (buildNode S dep ms ml = .leaf (mean (targets S)) ↔
      (S.length < ms ∨ depthDone dep ∨ allEqual (targets S) = true) ∨
      selectBest S = none ∨
      ∃ j t, selectBest S = some (j, t) ∧
        ((leftOf S j t).length < ml ∨ (rightOf S j t).length < ml ∨
          splitScore S j t ≤ 0)) ∧
    (∀ (j : ℕ) (t : ℚ),
      ¬(S.length < ms ∨ depthDone dep ∨ allEqual (targets S) = true) →
      selectBest S = some (j, t) →
      ¬((leftOf S j t).length < ml ∨ (rightOf S j t).length < ml ∨
        splitScore S j t ≤ 0) →
      buildNode S dep ms ml =
        .split j t (buildNode (leftOf S j t) (decDepth dep) ms ml)
                   (buildNode (rightOf S j t) (decDepth dep) ms ml)) := by
  constructor
  · constructor
    · intro hleaf
      by_cases h1 : S.length < ms ∨ depthDone dep ∨ allEqual (targets S) = true
      · exact Or.inl h1
      rcases hsel : selectBest S with _ | ⟨j, t⟩
      · exact Or.inr (Or.inl rfl)
      by_cases h2 : (leftOf S j t).length < ml ∨ (rightOf S j t).length < ml ∨
          splitScore S j t ≤ 0
      · exact Or.inr (Or.inr ⟨j, t, rfl, h2⟩)
      · rw [buildNode_split S dep ms ml j t h1 hsel h2] at hleaf
        exact Node.noConfusion hleaf
    · intro hcond
      rcases hcond with h1 | hsel | ⟨j, t, hsel, h2⟩
      · exact buildNode_leaf₁ S dep ms ml h1
      · by_cases h1 : S.length < ms ∨ depthDone dep ∨ allEqual (targets S) = true
        · exact buildNode_leaf₁ S dep ms ml h1
        · exact buildNode_leaf₂ S dep ms ml h1 hsel
      · by_cases h1 : S.length < ms ∨ depthDone dep ∨ allEqual (targets S) = true
        · exact buildNode_leaf₁ S dep ms ml h1
        · exact buildNode_leaf₃ S dep ms ml j t h1 hsel h2
  · intro j t h1 hsel h2
    exact buildNode_split S dep ms ml j t h1 hsel h2

theorem perfectFit_leaf_inv (v : ℚ) (S : List Sample)
    (h : PerfectFit (.leaf v) S) : S.length = 1 := by
  cases h with
  | leaf fv y => rfl

/-- C5 counterexample: pairwise-distinct targets alone do not force full
separation: two samples sharing one feature vector admit no split, end in
one common leaf, and `predict` at their shared feature vector returns the
mean 1/2 — neither sample's exact target. -/
theorem distinct_targets_not_sufficient :
    (targets [(([1] : List ℚ), (0 : ℚ)), ([1], 1)]).Nodup ∧
    build [(([1] : List ℚ), (0 : ℚ)), ([1], 1)] none 2 1 = .ok (.leaf (1 / 2)) ∧
    ¬ PerfectFit (.leaf (1 / 2)) [(([1] : List ℚ), (0 : ℚ)), ([1], 1)] ∧
    predict (.leaf (1 / 2)) [1] = .ok (1 / 2) := by
  refine ⟨?_, ?_, ?_, rfl⟩
  · norm_num [targets]
  · rw [show build [(([1] : List ℚ), (0 : ℚ)), ([1], 1)] none 2 1
        = .ok (buildNode [(([1] : List ℚ), (0 : ℚ)), ([1], 1)] none 2 1) from rfl,
      buildNode_pair_same_feature]
  · intro h
    have hlen := perfectFit_leaf_inv _ _ h
    simp at hlen

/-- C5 (amended): for every non-empty training set with pairwise-distinct
targets, uniform feature-vector width, and some feature coordinate on
which the samples take pairwise-distinct values, building with
`min_samples_split = 2`, `min_samples_leaf = 1` and unbounded depth
yields a tree that fits perfectly: every leaf covers exactly one training
sample, and `predict` returns the exact target at each training sample's
feature vector. -/
theorem perfect_fit_with_injective_feature (S : List Sample) (d j : ℕ)
    (hne : S ≠ []) (hw : ∀ s ∈ S, s.1.length = d) (hj : j < d)
    (hndf : (featVals S j).Nodup) (hndt : (targets S).Nodup) :
    ∃ tr, build S none 2 1 = .ok tr ∧ PerfectFit tr S ∧
      ∀ s ∈ S, predict tr s.1 = .ok s.2 := by
  have hb : build S none 2 1 = .ok (buildNode S none 2 1) := by
    cases S with
    | nil => exact absurd rfl hne
    | cons s S' => rfl
  have hpf := perfect_buildNode S.length S d j le_rfl hne hw hj hndf hndt
  refine ⟨buildNode S none 2 1, hb, hpf, ?_⟩
  intro s hs
  unfold predict
  rw [if_neg (not_lt.mpr (le_trans
    (requiredDim_buildNode_le S.length S none 2 1 d le_rfl hw) (hw s hs).ge))]
  rw [perfectFit_traverse _ S hpf s hs]

/-- C5 witness: the Position-Salaries scenario set has distinct targets
and distinct levels, so its build fits perfectly. -/
theorem perfect_fit_with_injective_feature_witness :
    ∃ tr, build posSalaries none 2 1 = .ok tr ∧ PerfectFit tr posSalaries ∧
      ∀ s ∈ posSalaries, predict tr s.1 = .ok s.2 :=
  perfect_fit_with_injective_feature posSalaries 1 0
    (by simp [posSalaries])
    (by simp [posSalaries])
    (by norm_num)
    (by
      have h : featVals posSalaries 0 = [1, 2, 3, 4, 5] := by
        norm_num [featVals, posSalaries, List.getD]
      rw [h]
      norm_num)
    (by
      have h : targets posSalaries = [45000, 50000, 60000, 80000, 110000] := by
        norm_num [targets, posSalaries]
      rw [h]
      norm_num)

/-- C3: on the scenario set, the build succeeds, prediction at level 3
returns exactly 60000, prediction at the off-sample level 3.5 returns
exactly the routed leaf's stored value 60000 (not an interpolation), and
every single-entry query returns some stored leaf value. -/
theorem position_salaries_scenario :
    build posSalaries none 2 1 = .ok (buildNode posSalaries none 2 1) ∧
    predict (buildNode posSalaries none 2 1) [3] = .ok 60000 ∧
    predict (buildNode posSalaries none 2 1) [7 / 2] = .ok 60000 ∧
    (∀ q : ℚ, ∃ v ∈ leafValues (buildNode posSalaries none 2 1),
      predict (buildNode posSalaries none 2 1) [q] = .ok v) := by
  have htree : buildNode posSalaries none 2 1 =
      .split 0 (7 / 2)
        (.split 0 (5 / 2)
          (.split 0 (3 / 2) (.leaf 45000) (.leaf 50000))
          (.leaf 60000))
        (.split 0 (9 / 2) (.leaf 80000) (.leaf 110000)) := by
    rw [← buildNodeF_eq 5 posSalaries none 2 1 (by norm_num [posSalaries])]
    norm_num [posSalaries, buildNodeF, selectBest, candidates, nFeatures, thresholds,
      featVals, sortedDistinct, insertDistinct, midpoints, argmaxFrom, List.range_succ,
      List.range_zero, List.flatMap_cons, List.flatMap_nil, List.getD, splitScore,
      leftOf, rightOf, goesLeft, variance, mean, targets, List.filter, allEqual,
      depthDone, decDepth]
  refine ⟨rfl, ?_, ?_, ?_⟩
  · rw [htree]
    norm_num [predict, requiredDim, traverse, goesLeft, List.getD]
  · rw [htree]
    norm_num [predict, requiredDim, traverse, goesLeft, List.getD]
  · intro q
    refine ⟨traverse (buildNode posSalaries none 2 1) [q],
      traverse_mem_leafValues _ _, ?_⟩
    unfold predict
    have hd : requiredDim (buildNode posSalaries none 2 1) ≤ 1 :=
      requiredDim_buildNode_le 5 posSalaries none 2 1 1 (by norm_num [posSalaries])
        (by simp [posSalaries])
    rw [if_neg (by simp only [List.length_singleton]; omega)]

end DTree
